import Mathlib

/-!
Verification of the cloudflare-r2-uploader upload engine (src/main.go).

The Go program is embedded shallowly:
* Go strings are modelled as `List Char` (`GoStr`), and the string
  operations the program uses (`strings.TrimLeft`, `strings.TrimPrefix`,
  `strings.Contains`, `filepath.Join` / `path.Clean` in their POSIX form)
  are defined below, faithful to their Go semantics.
* The `ProgressReader` type and its `Read` method are modelled as a pure
  step function on the running counter, fed with the result the wrapped
  reader returns for each call.
* The `upload` command body (`uploadCmd` in main.go) is modelled as a
  deterministic run over a list of per-file environments: each environment
  fixes what the external world (the filesystem and the S3 client) would
  answer for that walk entry.  The run records the externally visible
  actions (HeadObject calls, PutObject calls, log lines) as a list of
  events and either completes with the final counters or aborts fatally,
  mirroring `log.Fatalln` / `panic`.
-/

namespace R2

/-- Go strings, modelled as their character sequences. -/
abbrev GoStr := List Char

/-- Go `strings.TrimLeft(s, "/")`: drop all leading `/` characters
(main.go line 87). -/
def trimLeftSlash (s : GoStr) : GoStr := s.dropWhile (· = '/')

/-- Go `strings.TrimPrefix(s, pre)`: remove `pre` once if it is a prefix,
otherwise return `s` unchanged (main.go lines 130-131). -/
def trimPrefix (s pre : GoStr) : GoStr :=
  if pre.isPrefixOf s then s.drop pre.length else s

/-- Go `strings.Contains(s, sub)` (main.go lines 141, 200). -/
def goContains : GoStr → GoStr → Bool
  | [], sub => sub.isEmpty
  | c :: t, sub => sub.isPrefixOf (c :: t) || goContains t sub

/-- Prepend a character to the first component of a component list. -/
def consHead (c : Char) : List GoStr → List GoStr
  | [] => [[c]]
  | h :: r => (c :: h) :: r

/-- Split a string on `/`, keeping empty components, as `strings.Split`
does; used to express the component-wise semantics of `path.Clean`. -/
def splitOnSlash : GoStr → List GoStr
  | [] => [[]]
  | c :: t => if c = '/' then [] :: splitOnSlash t else consHead c (splitOnSlash t)

/-- Join components with `/` (inverse of `splitOnSlash` on slash-free
nonempty components). -/
def joinSlash : List GoStr → GoStr
  | [] => []
  | [c] => c
  | c :: r => c ++ '/' :: joinSlash r

/-- The component pass of Go `path.Clean` (POSIX): drop empty and `.`
components, resolve `..` against the stack (at the root, `..` is
dropped). -/
def cleanAux (rooted : Bool) (acc : List GoStr) : List GoStr → List GoStr
  | [] => acc.reverse
  | c :: rest =>
    if c = [] ∨ c = ['.'] then cleanAux rooted acc rest
    else if c = ['.', '.'] then
      match acc with
      | [] => if rooted then cleanAux rooted [] rest else cleanAux rooted [['.', '.']] rest
      | top :: below =>
        if top = ['.', '.'] then cleanAux rooted (c :: top :: below) rest
        else cleanAux rooted below rest
    else cleanAux rooted (c :: acc) rest

/-- Go `path.Clean` (the POSIX behaviour of `filepath.Clean`), expressed
through its standard component-wise semantics. -/
def pathClean (s : GoStr) : GoStr :=
  if s = [] then ['.']
  else
    let rooted : Bool := s.head? = some '/'
    let comps := cleanAux rooted [] (splitOnSlash s)
    let joined := joinSlash comps
    if rooted then '/' :: joined
    else if joined = [] then ['.'] else joined

/-- Go `filepath.Join(a, b)` on POSIX: ignore leading empty elements,
join the rest with `/` and clean (main.go line 131). -/
def filepathJoin2 (a b : GoStr) : GoStr :=
  if a = [] then (if b = [] then [] else pathClean b)
  else pathClean (a ++ '/' :: b)

/-- The remote key computed for a walk entry in directory mode
(main.go lines 130-131): trim the absolute root off the entry's path,
join the result onto the remote path and strip one leading `/`. -/
def dirKey (remotePath rootAbs path : GoStr) : GoStr :=
  let key := trimPrefix path rootAbs
  trimPrefix (filepathJoin2 remotePath key) ['/']

/-- The error message `strings.Contains` is matched against
(main.go lines 141, 200). -/
def notFoundMsg : GoStr := ['N', 'o', 't', ' ', 'F', 'o', 'u', 'n', 'd']

/-- Result of a `client.HeadObject` call: `ok` is a nil error (the object
exists), `err msg` is a non-nil error with message `msg`. -/
inductive HeadRes
  | ok
  | err (msg : GoStr)
deriving DecidableEq

/-- The skip decision of main.go lines 133-145 (and 192-204):
`skip := !force`; when not forced, a HeadObject error whose message
contains "Not Found" resets `skip` to false; any other outcome leaves
`skip` untouched. -/
def skipDecision (force : Bool) (h : HeadRes) : Bool :=
  if force then false
  else
    match h with
    | .ok => true
    | .err msg => if goContains msg notFoundMsg then false else true

/-! ## ProgressReader (main.go lines 30-50) -/

/-- The result of one `Read` call of the wrapped reader: the bytes it
wrote into the caller's buffer (so `n = data.length`) and the error value
it returned (`none` is a nil error; `io.EOF` is a non-nil error). -/
structure ReadResult where
  data : List Nat
  err : Option GoStr
deriving DecidableEq

/-- One callback invocation `progress(read, total)`. -/
structure ProgressCall where
  read : Nat
  total : Nat
deriving DecidableEq

/-- The method `ProgressReader.Read` (main.go lines 37-42), as a step function: given
the counter `read` and the wrapped reader's result `r`, it adds `n` to the
counter, invokes `progress(read+n, total)`, and returns `n, err` together
with the bytes the wrapped reader produced, all unchanged.  The returned
triple is (result passed to the caller, new counter, callback call). -/
def progressRead (total read : Nat) (r : ReadResult) :
    ReadResult × Nat × ProgressCall :=
  let read2 := read + r.data.length
  (r, read2, ⟨read2, total⟩)

/-- A sequence of `Read` calls: feed each wrapped-reader result through
`progressRead`, collecting the callback invocations; returns the final
counter and the callback sequence. -/
def progressRun (total : Nat) (read : Nat) : List ReadResult → Nat × List ProgressCall
  | [] => (read, [])
  | r :: rs =>
    let step := progressRead total read r
    let rest := progressRun total step.2.1 rs
    (rest.1, step.2.2 :: rest.2)

/-! ## The upload command (main.go lines 76-247) -/

/-- Externally visible actions of a run, in order: S3 calls and the log
lines the command prints. -/
inductive Event
  | headCall (key : GoStr)
  | skipLog (key : GoStr)
  | uploadingLog (idx : Nat) (key : GoStr)
  | putCall (key : GoStr)
  | summaryLog (uploaded skipped : Nat)
  | completeLog
deriving DecidableEq

/-- What the external world answers for one walk entry: the error (if any)
handed to the walk callback, whether the entry is a directory, the entry's
absolute path, and the outcomes of the HeadObject, `os.Open`, `file.Stat`
and PutObject calls, should they be made. -/
structure FileEnv where
  walkErr : Option GoStr
  isDir : Bool
  path : GoStr
  head : HeadRes
  openErr : Option GoStr
  size : Nat
  statErr : Option GoStr
  putErr : Option GoStr
deriving DecidableEq

/-- Outcome of a run: normal completion with the final counters, or a
fatal abort (`log.Fatalln` / `panic`) carrying the counters at the moment
of the abort and the number of walk entries consumed. -/
inductive RunResult
  | complete (uploaded skipped : Nat) (events : List Event)
  | fatal (msg : GoStr) (uploaded skipped consumed : Nat) (events : List Event)
deriving DecidableEq

def RunResult.isComplete : RunResult → Bool
  | .complete .. => true
  | .fatal .. => false

def RunResult.events : RunResult → List Event
  | .complete _ _ evs => evs
  | .fatal _ _ _ _ evs => evs

def RunResult.uploadedOf : RunResult → Nat
  | .complete u _ _ => u
  | .fatal _ u _ _ _ => u

def RunResult.skippedOf : RunResult → Nat
  | .complete _ s _ => s
  | .fatal _ _ s _ _ => s

def Event.isHead : Event → Bool
  | .headCall _ => true
  | _ => false

def Event.isSummary : Event → Bool
  | .summaryLog _ _ => true
  | _ => false

/-- Directory mode (main.go lines 115-188): process the walk entries in
order.  A walk error is fatal (line 123); directories are passed over
(line 127); for a file the key is computed (lines 130-131), the skip
decision made (lines 133-145, issuing a HeadObject call only when not
forced), and either `skipped` is incremented (lines 147-150) or the file
is opened, stat'ed and put — each failure fatal (lines 156-180) — and
`count` incremented (line 182).  After the walk the summary is logged
(line 188). -/
def walkRun (force : Bool) (remotePath rootAbs : GoStr)
    (uploaded skipped consumed : Nat) (acc : List Event) :
    List FileEnv → RunResult
  | [] => .complete uploaded skipped (acc ++ [.summaryLog uploaded skipped])
  | e :: rest =>
    match e.walkErr with
    | some m => .fatal m uploaded skipped (consumed + 1) acc
    | none =>
      if e.isDir then
        walkRun force remotePath rootAbs uploaded skipped (consumed + 1) acc rest
      else
        let key := dirKey remotePath rootAbs e.path
        let headEvs : List Event := if force then [] else [.headCall key]
        if skipDecision force e.head then
          walkRun force remotePath rootAbs uploaded (skipped + 1) (consumed + 1)
            (acc ++ headEvs ++ [.skipLog key]) rest
        else
          let evs := acc ++ headEvs ++ [.uploadingLog uploaded key]
          match e.openErr with
          | some m => .fatal m uploaded skipped (consumed + 1) evs
          | none =>
            match e.statErr with
            | some m => .fatal m uploaded skipped (consumed + 1) evs
            | none =>
              match e.putErr with
              | some m => .fatal m uploaded skipped (consumed + 1) (evs ++ [.putCall key])
              | none =>
                walkRun force remotePath rootAbs (uploaded + 1) skipped (consumed + 1)
                  (evs ++ [.putCall key]) rest

/-- Single-file mode (main.go lines 189-237): the key is the trimmed
remote path, unchanged (line 190); the same skip decision is made
(lines 192-204); a skip only logs (line 207), otherwise the file is
opened, stat'ed and put, each failure fatal (lines 211-235).  No counters
exist in this mode and no summary line is printed. -/
def singleRun (force : Bool) (remotePath : GoStr) (e : FileEnv) : RunResult :=
  let key := remotePath
  let headEvs : List Event := if force then [] else [.headCall key]
  if skipDecision force e.head then
    .complete 0 0 (headEvs ++ [.skipLog key])
  else
    match e.openErr with
    | some m => .fatal m 0 0 1 headEvs
    | none =>
      match e.statErr with
      | some m => .fatal m 0 0 1 headEvs
      | none =>
        match e.putErr with
        | some m => .fatal m 0 0 1 (headEvs ++ [.putCall key])
        | none => .complete 0 0 (headEvs ++ [.putCall key])

/-- The whole `upload` command run (main.go lines 83-240): trim the remote
path argument (line 87), branch on whether the local path is a directory
(line 115), and finally log "complete" (line 239). -/
def uploadRun (force : Bool) (remotePathArg : GoStr) (localIsDir : Bool)
    (rootAbs : GoStr) (entries : List FileEnv) (single : FileEnv) : RunResult :=
  let remotePath := trimLeftSlash remotePathArg
  let res :=
    if localIsDir then walkRun force remotePath rootAbs 0 0 0 [] entries
    else singleRun force remotePath single
  match res with
  | .complete u s evs => .complete u s (evs ++ [.completeLog])
  | .fatal m u s c evs => .fatal m u s c evs

/-- Number of non-directory, error-free walk entries in a list. -/
def fileCount (entries : List FileEnv) : Nat :=
  (entries.filter (fun e => e.walkErr = none ∧ e.isDir = false)).length

/-- A walk entry (at the given absolute path) all of whose external calls
succeed. -/
def okFile (p : GoStr) : FileEnv :=
  { walkErr := none, isDir := false, path := p, head := .ok
    openErr := none, size := 3, statErr := none, putErr := none }

/-- A walk entry whose PutObject call fails. -/
def putFailFile (p : GoStr) : FileEnv :=
  { okFile p with putErr := some ['p', 'u', 't', ' ', 'e', 'r', 'r'] }

/-- A "plain" path component: nonempty, slash-free, neither `.` nor `..`.
The path of a regular file relative to the walk root is a `/`-joined
sequence of plain components. -/
abbrev plainComp (c : GoStr) : Prop :=
  c ≠ [] ∧ '/' ∉ c ∧ c ≠ ['.'] ∧ c ≠ ['.', '.']

/-! ## Lemmas about the ProgressReader model -/

theorem progressRun_fst (total read : Nat) (rs : List ReadResult) :
    (progressRun total read rs).1 = read + (rs.map (fun r => r.data.length)).sum := by
  induction rs generalizing read with
  | nil => simp [progressRun]
  | cons r rs ih => simp [progressRun, progressRead, ih, Nat.add_assoc]

theorem progressRun_reads (total read : Nat) (rs : List ReadResult) :
    (progressRun total read rs).2.map ProgressCall.read
      = (List.scanl (· + ·) read (rs.map (fun r => r.data.length))).tail := by
  induction rs generalizing read with
  | nil => simp [progressRun]
  | cons r rs ih =>
    simp [progressRun, progressRead, List.scanl, ih]
    cases rs <;> simp [List.scanl]

theorem progressRun_length (total read : Nat) (rs : List ReadResult) :
    ((progressRun total read rs).2).length = rs.length := by
  induction rs generalizing read with
  | nil => rfl
  | cons r rs ih => simp [progressRun, ih]

theorem chain_le_scanl (read : Nat) (ns : List Nat) :
    List.Chain' (· ≤ ·) (List.scanl (· + ·) read ns) := by
  induction ns generalizing read with
  | nil => simp
  | cons n ns ih =>
    rw [List.scanl_cons]
    refine (List.chain'_cons'.mpr ⟨?_, ih _⟩)
    intro h hh
    cases ns <;> simp [List.scanl] at hh <;> omega

/-- C5: for every wrapped stream of known total size `S`, the sequence of
counter values reported by the progress callback is exactly the sequence
of partial sums of the byte counts returned by the underlying reads, hence
monotonically non-decreasing, and the final counter equals `S` whenever
the chunks sum to `S`. -/
theorem progress_counter_invariant (S : Nat) (rs : List ReadResult) :
    ((progressRun S 0 rs).2.map ProgressCall.read
        = (List.scanl (· + ·) 0 (rs.map (fun r => r.data.length))).tail)
    ∧ List.Chain' (· ≤ ·) ((progressRun S 0 rs).2.map ProgressCall.read)
    ∧ ((rs.map (fun r => r.data.length)).sum = S → (progressRun S 0 rs).1 = S) := by
  refine ⟨progressRun_reads S 0 rs, ?_, ?_⟩
  · rw [progressRun_reads]
    exact (chain_le_scanl 0 _).tail
  · intro h
    rw [progressRun_fst, h]
    simp

/-- Witness for C5 on a concrete two-chunk stream summing to its total. -/
theorem progress_counter_invariant_witness :
    (progressRun 5 0 [⟨[1, 2, 3], none⟩, ⟨[9, 9], none⟩]).1 = 5 :=
  (progress_counter_invariant 5 [⟨[1, 2, 3], none⟩, ⟨[9, 9], none⟩]).2.2 (by decide)

/-- C6: each `Read` of the wrapper hands the caller exactly the bytes
produced by the wrapped reader and the wrapped reader's error value,
both unchanged. -/
theorem progress_passthrough (total read : Nat) (r : ReadResult) :
    ((progressRead total read r).1.data = r.data)
    ∧ ((progressRead total read r).1.err = r.err) :=
  ⟨rfl, rfl⟩

/-- C10: the progress callback fires exactly once per `Read` call — also
on zero-byte reads and on reads returning an error — with the counter
already updated by the returned byte count, so `(total, total)` can be
reported more than once at end of stream and bytes delivered alongside an
error are counted before the error is propagated. -/
theorem progress_callback_every_read :
    (∀ (total read : Nat) (r : ReadResult),
        (progressRead total read r).2.2 = ⟨read + r.data.length, total⟩)
    ∧ (∀ (total read : Nat) (rs : List ReadResult),
        ((progressRun total read rs).2).length = rs.length)
    ∧ ((progressRun 5 0 [⟨[1, 2, 3, 4, 5], none⟩, ⟨[], some ['E', 'O', 'F']⟩]).2
        = [⟨5, 5⟩, ⟨5, 5⟩])
    ∧ ((progressRead 9 4 ⟨[7, 7], some ['e']⟩).2.1 = 6
        ∧ (progressRead 9 4 ⟨[7, 7], some ['e']⟩).1.err = some ['e']) :=
  ⟨fun _ _ _ => rfl, progressRun_length, by decide, by decide, by decide⟩

/-! ## Lemmas about the walk run -/

theorem walkRun_force_no_head (rp root : GoStr) (entries : List FileEnv) :
    ∀ (u s c : Nat) (acc : List Event),
      (∀ ev ∈ acc, ev.isHead = false) →
      ∀ ev ∈ (walkRun true rp root u s c acc entries).events, ev.isHead = false := by
  induction entries with
  | nil =>
    intro u s c acc hacc ev hev
    simp only [walkRun, RunResult.events, List.mem_append, List.mem_singleton] at hev
    rcases hev with h | h
    · exact hacc ev h
    · rw [h]; rfl
  | cons e rest ih =>
    intro u s c acc hacc ev hev
    obtain ⟨we, dir, path, hd, oe, sz, se, pe⟩ := e
    cases we with
    | some m =>
      simp only [walkRun, RunResult.events] at hev
      exact hacc ev hev
    | none =>
      cases dir with
      | true =>
        simp only [walkRun] at hev
        exact ih u s (c + 1) acc hacc ev hev
      | false =>
        simp only [walkRun, skipDecision, if_pos, if_neg, Bool.false_eq_true,
          reduceIte] at hev
        cases oe with
        | some m =>
          simp only [RunResult.events] at hev
          simp only [List.append_nil, List.nil_append, List.mem_append,
            List.mem_singleton] at hev
          rcases hev with h | h
          · exact hacc ev h
          · rw [h]; rfl
        | none =>
          cases se with
          | some m =>
            simp only [RunResult.events] at hev
            simp only [List.append_nil, List.nil_append, List.mem_append,
              List.mem_singleton] at hev
            rcases hev with h | h
            · exact hacc ev h
            · rw [h]; rfl
          | none =>
            cases pe with
            | some m =>
              simp only [RunResult.events] at hev
              simp only [List.append_assoc, List.append_nil, List.nil_append,
                List.mem_append, List.mem_singleton] at hev
              rcases hev with h | h | h
              · exact hacc ev h
              · rw [h]; rfl
              · rw [h]; rfl
            | none =>
              refine ih (u + 1) s (c + 1) _ ?_ ev hev
              intro ev' hev'
              simp only [List.append_assoc, List.append_nil, List.nil_append,
                List.mem_append, List.mem_singleton] at hev'
              rcases hev' with h | h | h
              · exact hacc ev' h
              · rw [h]; rfl
              · rw [h]; rfl

/-- C1: the existence policy.  With `force` true the skip decision is
always false (upload proceeds) and a forced directory run issues no
HeadObject call at all; with `force` false, a successful HEAD (object
exists) yields skip, a HEAD error whose message contains "Not Found"
yields no skip, and a HEAD error with any other message yields skip. -/
theorem existence_policy :
    (∀ h, skipDecision true h = false)
    ∧ (∀ (rp root : GoStr) (u s c : Nat) (acc : List Event)
        (entries : List FileEnv),
        (∀ ev ∈ acc, ev.isHead = false) →
        ∀ ev ∈ (walkRun true rp root u s c acc entries).events, ev.isHead = false)
    ∧ skipDecision false .ok = true
    ∧ (∀ m, goContains m notFoundMsg = true → skipDecision false (.err m) = false)
    ∧ (∀ m, goContains m notFoundMsg = false → skipDecision false (.err m) = true) := by
  refine ⟨fun h => rfl, ?_, rfl, ?_, ?_⟩
  · intro rp root u s c acc entries hacc
    exact walkRun_force_no_head rp root entries u s c acc hacc
  · intro m hm
    simp [skipDecision, hm]
  · intro m hm
    simp [skipDecision, hm]

/-- Witness for C1: a concrete forced run emits no head call, and the
three unforced cases at concrete HEAD results. -/
theorem existence_policy_witness :
    (∀ ev ∈ (walkRun true ['p'] ['/', 'r'] 0 0 0 []
        [okFile ['/', 'r', '/', 'f']]).events, ev.isHead = false)
    ∧ skipDecision false (.err ['x', ' ', 'N', 'o', 't', ' ', 'F', 'o', 'u', 'n', 'd']) = false
    ∧ skipDecision false (.err ['F', 'o', 'r', 'b', 'i', 'd', 'd', 'e', 'n']) = true :=
  ⟨existence_policy.2.1 ['p'] ['/', 'r'] 0 0 0 [] [okFile ['/', 'r', '/', 'f']]
      (by simp),
   existence_policy.2.2.2.1 _ (by decide),
   existence_policy.2.2.2.2 _ (by decide)⟩

theorem fileCount_cons (e : FileEnv) (rest : List FileEnv) :
    fileCount (e :: rest)
      = (if e.walkErr = none ∧ e.isDir = false then 1 else 0) + fileCount rest := by
  by_cases h : e.walkErr = none ∧ e.isDir = false
  · rw [if_pos h]
    simp only [fileCount, List.filter_cons]
    rw [if_pos (by simpa using h)]
    simp [Nat.add_comm]
  · rw [if_neg h]
    simp only [fileCount, List.filter_cons]
    rw [if_neg (by simpa using h)]
    simp [fileCount]

theorem walkRun_tally (force : Bool) (rp root : GoStr) (entries : List FileEnv) :
    ∀ (u s c : Nat) (acc : List Event) (u2 s2 : Nat) (evs : List Event),
      walkRun force rp root u s c acc entries = .complete u2 s2 evs →
      u2 + s2 = u + s + fileCount entries ∧ u ≤ u2 ∧ s ≤ s2 := by
  induction entries with
  | nil =>
    intro u s c acc u2 s2 evs hrun
    simp only [walkRun, RunResult.complete.injEq] at hrun
    obtain ⟨hu, hs, _⟩ := hrun
    subst hu hs
    simp [fileCount]
  | cons e rest ih =>
    intro u s c acc u2 s2 evs hrun
    rcases hwe : e.walkErr with _ | m
    · simp only [walkRun, hwe] at hrun
      rcases hdir : e.isDir with _ | _
      · simp only [hdir, Bool.false_eq_true, reduceIte] at hrun
        rcases hsk : skipDecision force e.head with _ | _
        · simp only [hsk, Bool.false_eq_true, reduceIte] at hrun
          rcases hoe : e.openErr with _ | m
          · simp only [hoe] at hrun
            rcases hse : e.statErr with _ | m
            · simp only [hse] at hrun
              rcases hpe : e.putErr with _ | m
              · simp only [hpe] at hrun
                have h := ih (u + 1) s (c + 1) _ u2 s2 evs hrun
                rw [fileCount_cons, if_pos ⟨hwe, hdir⟩]
                omega
              · simp only [hpe] at hrun
                exact absurd hrun (by simp)
            · simp only [hse] at hrun
              exact absurd hrun (by simp)
          · simp only [hoe] at hrun
            exact absurd hrun (by simp)
        · simp only [hsk, reduceIte] at hrun
          have h := ih u (s + 1) (c + 1) _ u2 s2 evs hrun
          rw [fileCount_cons, if_pos ⟨hwe, hdir⟩]
          omega
      · simp only [hdir, reduceIte] at hrun
        have h := ih u s (c + 1) acc u2 s2 evs hrun
        rw [fileCount_cons, if_neg (by simp [hdir])]
        omega
    · simp only [walkRun, hwe] at hrun
      exact absurd hrun (by simp)

/-- C9: in directory mode each processed non-directory file increments
exactly one of the two counters by exactly one: a completing walk from
counters `(u, s)` ends with counters that sum to `u + s` plus the number
of non-directory entries, each counter individually non-decreasing, and a
completing one-file walk increments exactly one of the two by one. -/
theorem tally_invariant (force : Bool) (rp root : GoStr) (u s c : Nat)
    (acc : List Event) (entries : List FileEnv) (u2 s2 : Nat) (evs : List Event)
    (hrun : walkRun force rp root u s c acc entries = .complete u2 s2 evs) :
    (u2 + s2 = u + s + fileCount entries ∧ u ≤ u2 ∧ s ≤ s2)
    ∧ (∀ e ∈ entries, entries = [e] → e.walkErr = none → e.isDir = false →
        (u2 = u + 1 ∧ s2 = s) ∨ (u2 = u ∧ s2 = s + 1)) := by
  refine ⟨walkRun_tally force rp root entries u s c acc u2 s2 evs hrun, ?_⟩
  intro e _ hone hwe hdir
  subst hone
  have h := walkRun_tally force rp root [e] u s c acc u2 s2 evs hrun
  have hfc : fileCount [e] = 1 := by
    rw [fileCount_cons, if_pos ⟨hwe, hdir⟩]
    rfl
  omega

/-- Witness for C9 on a concrete unforced two-file run (one skip, one
upload). -/
theorem tally_invariant_witness :
    ((2 : Nat) + 1 = 1 + 0 + fileCount
        [okFile ['/', 'r', '/', 'a'],
         { okFile ['/', 'r', '/', 'b'] with head := .err ['N', 'o', 't', ' ', 'F', 'o', 'u', 'n', 'd'] },
         { okFile ['/', 'r', '/', 'c'] with isDir := true }] ∧ 1 ≤ 2 ∧ 0 ≤ 1) := by
  obtain ⟨evs, hrun⟩ : ∃ evs, walkRun false ['p'] ['/', 'r'] 1 0 0 []
    [okFile ['/', 'r', '/', 'a'],
     { okFile ['/', 'r', '/', 'b'] with head := .err ['N', 'o', 't', ' ', 'F', 'o', 'u', 'n', 'd'] },
     { okFile ['/', 'r', '/', 'c'] with isDir := true }] = .complete 2 1 evs := ⟨_, rfl⟩
  exact (tally_invariant false ['p'] ['/', 'r'] 1 0 0 []
    [okFile ['/', 'r', '/', 'a'],
     { okFile ['/', 'r', '/', 'b'] with head := .err ['N', 'o', 't', ' ', 'F', 'o', 'u', 'n', 'd'] },
     { okFile ['/', 'r', '/', 'c'] with isDir := true }] 2 1 evs hrun).1

theorem skipDecision_true (h : HeadRes) : skipDecision true h = false := rfl

theorem walkRun_force_ok (rp root : GoStr) (entries : List FileEnv) :
    ∀ (u s c : Nat) (acc : List Event),
      (∀ e ∈ entries,
        e.walkErr = none ∧ e.openErr = none ∧ e.statErr = none ∧ e.putErr = none) →
      (walkRun true rp root u s c acc entries).isComplete = true
      ∧ (walkRun true rp root u s c acc entries).uploadedOf = u + fileCount entries
      ∧ (walkRun true rp root u s c acc entries).skippedOf = s := by
  induction entries with
  | nil =>
    intro u s c acc _
    refine ⟨rfl, ?_, rfl⟩
    simp [walkRun, RunResult.uploadedOf, fileCount]
  | cons e rest ih =>
    intro u s c acc hok
    obtain ⟨hwe, hoe, hse, hpe⟩ := hok e (List.mem_cons_self _ _)
    have hok' := fun e' he' => hok e' (List.mem_cons_of_mem _ he')
    rcases hdir : e.isDir with _ | _
    · simp only [walkRun, hwe, hdir, skipDecision_true, Bool.false_eq_true, reduceIte,
        hoe, hse, hpe]
      rw [fileCount_cons, if_pos ⟨hwe, hdir⟩]
      refine ⟨(ih _ _ _ _ hok').1, ?_, (ih _ _ _ _ hok').2.2⟩
      rw [(ih (u + 1) s (c + 1) _ hok').2.1]
      omega
    · -- directory entry: passed over
      simp only [walkRun, hwe, hdir, reduceIte]
      rw [fileCount_cons, if_neg (by simp [hdir])]
      have h := ih u s (c + 1) acc hok'
      exact ⟨h.1, by rw [h.2.1]; omega, h.2.2⟩

/-- C4: a directory run with `force = true` in which every filesystem and
PutObject call succeeds completes with `uploadedCount` equal to the number
of non-directory entries and `skippedCount` equal to zero. -/
theorem force_true_directory_counts (rp root : GoStr) (entries : List FileEnv)
    (hok : ∀ e ∈ entries,
      e.walkErr = none ∧ e.openErr = none ∧ e.statErr = none ∧ e.putErr = none) :
    (walkRun true rp root 0 0 0 [] entries).isComplete = true
    ∧ (walkRun true rp root 0 0 0 [] entries).uploadedOf = fileCount entries
    ∧ (walkRun true rp root 0 0 0 [] entries).skippedOf = 0 := by
  have h := walkRun_force_ok rp root entries 0 0 0 [] hok
  exact ⟨h.1, h.2.1.trans (Nat.zero_add _), h.2.2⟩

/-- Witness for C4 on a concrete tree of two files and one directory. -/
theorem force_true_directory_counts_witness :
    (walkRun true ['p'] ['/', 'r'] 0 0 0 []
        [okFile ['/', 'r', '/', 'a'],
         { okFile ['/', 'r', '/', 'd'] with isDir := true },
         okFile ['/', 'r', '/', 'c']]).isComplete = true
    ∧ (walkRun true ['p'] ['/', 'r'] 0 0 0 []
        [okFile ['/', 'r', '/', 'a'],
         { okFile ['/', 'r', '/', 'd'] with isDir := true },
         okFile ['/', 'r', '/', 'c']]).uploadedOf = 2
    ∧ (walkRun true ['p'] ['/', 'r'] 0 0 0 []
        [okFile ['/', 'r', '/', 'a'],
         { okFile ['/', 'r', '/', 'd'] with isDir := true },
         okFile ['/', 'r', '/', 'c']]).skippedOf = 0 := by
  have h := force_true_directory_counts ['p'] ['/', 'r']
    [okFile ['/', 'r', '/', 'a'],
     { okFile ['/', 'r', '/', 'd'] with isDir := true },
     okFile ['/', 'r', '/', 'c']] (by decide)
  exact ⟨h.1, h.2.1.trans (by decide), h.2.2⟩

/-- C2: abort on first error.  If a walk entry is a file that is not
skipped and its open, stat or put call fails, the run ends fatally
(never completes), the counters at the abort are exactly the counters
accumulated before the failing file, and the entries after the failing
one are never examined: the run equals the run on the list truncated at
the failing file.  Concretely, in a three-file directory whose second
PutObject fails, the run aborts with exactly one successful upload and
never touches the third file. -/
theorem abort_on_first_error (force : Bool) (rp root : GoStr) (u s c : Nat)
    (acc : List Event) (bad : FileEnv) (post : List FileEnv)
    (hwe : bad.walkErr = none) (hdir : bad.isDir = false)
    (hskip : skipDecision force bad.head = false)
    (herr : bad.openErr ≠ none ∨ bad.statErr ≠ none ∨ bad.putErr ≠ none) :
    ((walkRun force rp root u s c acc (bad :: post)).isComplete = false)
    ∧ ((walkRun force rp root u s c acc (bad :: post)).uploadedOf = u)
    ∧ ((walkRun force rp root u s c acc (bad :: post)).skippedOf = s)
    ∧ (walkRun force rp root u s c acc (bad :: post)
        = walkRun force rp root u s c acc [bad])
    ∧ (walkRun true ['p'] ['/', 'r'] 0 0 0 []
        [okFile ['/', 'r', '/', 'a'], putFailFile ['/', 'r', '/', 'b'],
         okFile ['/', 'r', '/', 'c']]
        = walkRun true ['p'] ['/', 'r'] 0 0 0 []
        [okFile ['/', 'r', '/', 'a'], putFailFile ['/', 'r', '/', 'b']])
    ∧ ((walkRun true ['p'] ['/', 'r'] 0 0 0 []
        [okFile ['/', 'r', '/', 'a'], putFailFile ['/', 'r', '/', 'b'],
         okFile ['/', 'r', '/', 'c']]).isComplete = false)
    ∧ ((walkRun true ['p'] ['/', 'r'] 0 0 0 []
        [okFile ['/', 'r', '/', 'a'], putFailFile ['/', 'r', '/', 'b'],
         okFile ['/', 'r', '/', 'c']]).uploadedOf = 1) := by
  refine ⟨?_, ?_, ?_, ?_, by decide, by decide, by decide⟩ <;>
    rcases hoe : bad.openErr with _ | m
  all_goals
    try rcases hse : bad.statErr with _ | m
  all_goals
    try rcases hpe : bad.putErr with _ | m
  all_goals
    try (exfalso; simp [hoe, hse, hpe] at herr; done)
  all_goals
    simp only [walkRun, hwe, hdir, hskip, Bool.false_eq_true, reduceIte,
      RunResult.isComplete, RunResult.uploadedOf, RunResult.skippedOf]
  all_goals
    simp [hoe, hse, hpe]

/-- Witness for C2: the failing second file of the concrete scenario,
with the counters as they stand after the first upload. -/
theorem abort_on_first_error_witness :
    ((walkRun true ['p'] ['/', 'r'] 1 0 1 []
        (putFailFile ['/', 'r', '/', 'b'] :: [okFile ['/', 'r', '/', 'c']])).isComplete
      = false)
    ∧ ((walkRun true ['p'] ['/', 'r'] 1 0 1 []
        (putFailFile ['/', 'r', '/', 'b'] :: [okFile ['/', 'r', '/', 'c']])).uploadedOf = 1)
    ∧ ((walkRun true ['p'] ['/', 'r'] 1 0 1 []
        (putFailFile ['/', 'r', '/', 'b'] :: [okFile ['/', 'r', '/', 'c']])).skippedOf = 0)
    ∧ (walkRun true ['p'] ['/', 'r'] 1 0 1 []
        (putFailFile ['/', 'r', '/', 'b'] :: [okFile ['/', 'r', '/', 'c']])
        = walkRun true ['p'] ['/', 'r'] 1 0 1 [] [putFailFile ['/', 'r', '/', 'b']]) := by
  have h := abort_on_first_error true ['p'] ['/', 'r'] 1 0 1 []
    (putFailFile ['/', 'r', '/', 'b']) [okFile ['/', 'r', '/', 'c']]
    rfl rfl rfl (Or.inr (Or.inr (by decide)))
  exact ⟨h.1, h.2.1, h.2.2.1, h.2.2.2.1⟩

theorem walkRun_complete_last (force : Bool) (rp root : GoStr)
    (entries : List FileEnv) :
    ∀ (u s c : Nat) (acc : List Event) (u2 s2 : Nat) (evs : List Event),
      walkRun force rp root u s c acc entries = .complete u2 s2 evs →
      ∃ pre, evs = pre ++ [.summaryLog u2 s2] := by
  induction entries with
  | nil =>
    intro u s c acc u2 s2 evs hrun
    simp only [walkRun, RunResult.complete.injEq] at hrun
    obtain ⟨hu, hs, hevs⟩ := hrun
    exact ⟨acc, by rw [← hevs, hu, hs]⟩
  | cons e rest ih =>
    intro u s c acc u2 s2 evs hrun
    rcases hwe : e.walkErr with _ | m
    · simp only [walkRun, hwe] at hrun
      rcases hdir : e.isDir with _ | _
      · simp only [hdir, Bool.false_eq_true, reduceIte] at hrun
        rcases hsk : skipDecision force e.head with _ | _
        · simp only [hsk, Bool.false_eq_true, reduceIte] at hrun
          rcases hoe : e.openErr with _ | m
          · simp only [hoe] at hrun
            rcases hse : e.statErr with _ | m
            · simp only [hse] at hrun
              rcases hpe : e.putErr with _ | m
              · simp only [hpe] at hrun
                exact ih _ _ _ _ _ _ _ hrun
              · simp only [hpe] at hrun
                exact absurd hrun (by simp)
            · simp only [hse] at hrun
              exact absurd hrun (by simp)
          · simp only [hoe] at hrun
            exact absurd hrun (by simp)
        · simp only [hsk, reduceIte] at hrun
          exact ih _ _ _ _ _ _ _ hrun
      · simp only [hdir, reduceIte] at hrun
        exact ih _ _ _ _ _ _ _ hrun
    · simp only [walkRun, hwe] at hrun
      exact absurd hrun (by simp)

/-- Counterexample to C7 as stated: a single-file run that completes
without any fatal error but whose output contains no uploaded/skipped
summary line at all (single-file mode prints only "complete"). -/
theorem completion_single_counterexample :
    ((uploadRun true ['d'] false ['/', 'r'] [] (okFile ['/', 'l'])).isComplete = true)
    ∧ ((uploadRun true ['d'] false ['/', 'r'] []
        (okFile ['/', 'l'])).events.filter Event.isSummary = []) := by
  decide

/-- C7 (amended): a directory-mode run that completes without a fatal
error reports the final uploaded/skipped counts as a summary line followed
by the final "complete" line; a single-file-mode run that completes prints
no counts summary at all, only the final "complete" line. -/
theorem completion_reporting (force : Bool) (arg root : GoStr)
    (entries : List FileEnv) (sf : FileEnv) (u s : Nat) (evs : List Event) :
    (uploadRun force arg true root entries sf = .complete u s evs →
      ∃ pre, evs = pre ++ [.summaryLog u s, .completeLog])
    ∧ (uploadRun force arg false root entries sf = .complete u s evs →
      evs.filter Event.isSummary = [] ∧ ∃ pre, evs = pre ++ [.completeLog]) := by
  constructor
  · intro h
    simp only [uploadRun, reduceIte] at h
    rcases hw : walkRun force (trimLeftSlash arg) root 0 0 0 [] entries with
      ⟨u', s', evs'⟩ | ⟨m, u', s', c', evs'⟩
    · rw [hw] at h
      simp only [RunResult.complete.injEq] at h
      obtain ⟨hu, hs, hevs⟩ := h
      obtain ⟨pre, hpre⟩ := walkRun_complete_last force (trimLeftSlash arg) root
        entries 0 0 0 [] u' s' evs' hw
      refine ⟨pre, ?_⟩
      rw [← hevs, hpre, hu, hs, List.append_assoc]
      rfl
    · rw [hw] at h
      exact absurd h (by simp)
  · intro h
    simp only [uploadRun, Bool.false_eq_true, reduceIte, singleRun] at h
    rcases hsk : skipDecision force sf.head with _ | _
    · rw [hsk] at h
      simp only [Bool.false_eq_true, reduceIte] at h
      rcases hoe : sf.openErr with _ | m
      · rw [hoe] at h
        rcases hse : sf.statErr with _ | m
        · rw [hse] at h
          rcases hpe : sf.putErr with _ | m
          · rw [hpe] at h
            simp only [RunResult.complete.injEq] at h
            obtain ⟨_, _, hevs⟩ := h
            subst hevs
            cases force <;>
              exact ⟨by rfl, _, rfl⟩
          · rw [hpe] at h
            exact absurd h (by simp)
        · rw [hse] at h
          exact absurd h (by simp)
      · rw [hoe] at h
        exact absurd h (by simp)
    · rw [hsk] at h
      simp only [reduceIte, RunResult.complete.injEq] at h
      obtain ⟨_, _, hevs⟩ := h
      subst hevs
      cases force <;>
        exact ⟨by rfl, _, rfl⟩

/-- Witness for C7 (amended): concrete directory-mode and single-file
runs at which the reporting shape is exhibited. -/
theorem completion_reporting_witness :
    (∃ pre, (uploadRun true ['p'] true ['/', 'r'] [okFile ['/', 'r', '/', 'a']]
        (okFile ['/', 'l'])).events = pre ++ [.summaryLog 1 0, .completeLog])
    ∧ ((uploadRun true ['p'] false ['/', 'r'] [] (okFile ['/', 'l'])).events.filter
        Event.isSummary = []) := by
  obtain ⟨evs, hrun⟩ : ∃ evs, uploadRun true ['p'] true ['/', 'r']
      [okFile ['/', 'r', '/', 'a']] (okFile ['/', 'l']) = .complete 1 0 evs := ⟨_, rfl⟩
  obtain ⟨evs2, hrun2⟩ : ∃ evs2, uploadRun true ['p'] false ['/', 'r'] []
      (okFile ['/', 'l']) = .complete 0 0 evs2 := ⟨_, rfl⟩
  constructor
  · obtain ⟨pre, hpre⟩ := (completion_reporting true ['p'] ['/', 'r']
      [okFile ['/', 'r', '/', 'a']] (okFile ['/', 'l']) 1 0 evs).1 hrun
    exact ⟨pre, by rw [hrun, RunResult.events, hpre]⟩
  · have h := (completion_reporting true ['p'] ['/', 'r'] []
      (okFile ['/', 'l']) 0 0 evs2).2 hrun2
    rw [hrun2, RunResult.events]
    exact h.1

theorem trimLeftSlash_replicate (s : GoStr) :
    ∃ n, s = List.replicate n '/' ++ trimLeftSlash s := by
  induction s with
  | nil => exact ⟨0, rfl⟩
  | cons c t ih =>
    by_cases hc : c = '/'
    · obtain ⟨n, hn⟩ := ih
      subst hc
      refine ⟨n + 1, ?_⟩
      have ht : trimLeftSlash ('/' :: t) = trimLeftSlash t := by
        simp [trimLeftSlash]
      rw [ht, List.replicate_succ, List.cons_append, ← hn]
    · refine ⟨0, ?_⟩
      have ht : trimLeftSlash (c :: t) = c :: t := by
        simp [trimLeftSlash, hc]
      rw [ht]
      rfl

theorem head_trimLeftSlash (s : GoStr) :
    ∀ ch, (trimLeftSlash s).head? = some ch → ch ≠ '/' := by
  induction s with
  | nil =>
    intro ch h
    simp [trimLeftSlash] at h
  | cons c t ih =>
    intro ch h
    by_cases hc : c = '/'
    · rw [show trimLeftSlash (c :: t) = trimLeftSlash t by simp [trimLeftSlash, hc]] at h
      exact ih ch h
    · rw [show trimLeftSlash (c :: t) = c :: t by simp [trimLeftSlash, hc]] at h
      simp only [List.head?_cons, Option.some.injEq] at h
      exact fun hch => hc (h.trans hch)

theorem singleRun_keys (force : Bool) (rp : GoStr) (sf : FileEnv) (k : GoStr) :
    (Event.headCall k ∈ (singleRun force rp sf).events
      ∨ Event.putCall k ∈ (singleRun force rp sf).events) → k = rp := by
  intro hk
  rcases hsk : skipDecision force sf.head with _ | _ <;>
  rcases hoe : sf.openErr with _ | m <;>
  rcases hse : sf.statErr with _ | m2 <;>
  rcases hpe : sf.putErr with _ | m3 <;>
  cases force <;>
  simp_all [singleRun, RunResult.events]

/-- C8: in single-file mode the remote key used for the existence check
and for the upload is the remote path argument with all leading `/`
characters stripped and is otherwise unchanged: no relative-path
computation or prefix join happens.  Every HeadObject and PutObject call
of a single-file run carries exactly `trimLeftSlash arg` as its key, the
argument differs from that key only by a run of leading slashes, and the
key itself never starts with `/`. -/
theorem single_file_key (force : Bool) (arg root : GoStr)
    (entries : List FileEnv) (sf : FileEnv) :
    (∀ k, Event.headCall k ∈ (uploadRun force arg false root entries sf).events →
        k = trimLeftSlash arg)
    ∧ (∀ k, Event.putCall k ∈ (uploadRun force arg false root entries sf).events →
        k = trimLeftSlash arg)
    ∧ (∃ n, arg = List.replicate n '/' ++ trimLeftSlash arg)
    ∧ (∀ ch, (trimLeftSlash arg).head? = some ch → ch ≠ '/') := by
  have hmem : ∀ ev, ev ∈ (uploadRun force arg false root entries sf).events →
      ev = Event.completeLog ∨ ev ∈ (singleRun force (trimLeftSlash arg) sf).events := by
    intro ev hev
    simp only [uploadRun, Bool.false_eq_true, reduceIte] at hev
    rcases hres : singleRun force (trimLeftSlash arg) sf with
      ⟨u', s', evs'⟩ | ⟨m, u', s', c', evs'⟩
    · rw [hres] at hev
      simp only [RunResult.events, List.mem_append, List.mem_singleton] at hev
      rcases hev with hev | hev
      · exact Or.inr hev
      · exact Or.inl hev
    · rw [hres] at hev
      exact Or.inr hev
  refine ⟨?_, ?_, trimLeftSlash_replicate arg, head_trimLeftSlash arg⟩
  · intro k hk
    rcases hmem _ hk with h | h
    · exact absurd h (by simp)
    · exact singleRun_keys force (trimLeftSlash arg) sf k (Or.inl h)
  · intro k hk
    rcases hmem _ hk with h | h
    · exact absurd h (by simp)
    · exact singleRun_keys force (trimLeftSlash arg) sf k (Or.inr h)

/-- Witness for C8: a concrete unforced single-file run whose HEAD and
PUT both carry the trimmed remote path as key. -/
theorem single_file_key_witness :
    (['d'] : GoStr) = trimLeftSlash ['/', 'd']
    ∧ ((['d'] : GoStr) = trimLeftSlash ['/', 'd']) :=
  ⟨(single_file_key false ['/', 'd'] ['/', 'r'] []
      { okFile ['/', 'l'] with head := .err notFoundMsg }).1 ['d'] (by decide),
   (single_file_key false ['/', 'd'] ['/', 'r'] []
      { okFile ['/', 'l'] with head := .err notFoundMsg }).2.1 ['d'] (by decide)⟩

/-! ## Lemmas about splitting, joining and cleaning paths -/

theorem splitOnSlash_exists_cons (s : GoStr) : ∃ h r, splitOnSlash s = h :: r := by
  cases s with
  | nil => exact ⟨[], [], rfl⟩
  | cons c t =>
    by_cases hc : c = '/'
    · exact ⟨[], splitOnSlash t, by simp [splitOnSlash, hc]⟩
    · rcases h : splitOnSlash t with _ | ⟨h1, r⟩
      · exact ⟨[c], [], by simp [splitOnSlash, hc, consHead, h]⟩
      · exact ⟨c :: h1, r, by simp [splitOnSlash, hc, consHead, h]⟩

theorem splitOnSlash_append (a b : GoStr) :
    splitOnSlash (a ++ '/' :: b) = splitOnSlash a ++ splitOnSlash b := by
  induction a with
  | nil => simp [splitOnSlash]
  | cons c t ih =>
    by_cases hc : c = '/'
    · simp [splitOnSlash, hc, ih]
    · obtain ⟨h1, r, hto⟩ := splitOnSlash_exists_cons t
      have hs : splitOnSlash ((c :: t) ++ '/' :: b)
          = consHead c (splitOnSlash (t ++ '/' :: b)) := by
        simp [splitOnSlash, hc]
      rw [hs, ih, hto]
      rw [show splitOnSlash (c :: t) = consHead c (splitOnSlash t) by
        simp [splitOnSlash, hc]]
      rw [hto]
      rfl

theorem splitOnSlash_noslash (c : GoStr) (hc : '/' ∉ c) : splitOnSlash c = [c] := by
  induction c with
  | nil => rfl
  | cons ch t ih =>
    have hch : ch ≠ '/' := fun h => hc (h ▸ List.mem_cons_self _ _)
    have ht : '/' ∉ t := fun h => hc (List.mem_cons_of_mem _ h)
    simp [splitOnSlash, hch, ih ht, consHead]

theorem splitOnSlash_join (comps : List GoStr) (hne : comps ≠ [])
    (hns : ∀ c ∈ comps, '/' ∉ c) : splitOnSlash (joinSlash comps) = comps := by
  induction comps with
  | nil => exact absurd rfl hne
  | cons c rest ih =>
    cases rest with
    | nil => exact splitOnSlash_noslash c (hns c (List.mem_cons_self _ _))
    | cons d r =>
      have h1 : joinSlash (c :: d :: r) = c ++ '/' :: joinSlash (d :: r) := rfl
      rw [h1, splitOnSlash_append,
        splitOnSlash_noslash c (hns c (List.mem_cons_self _ _)),
        ih (by simp) (fun x hx => hns x (List.mem_cons_of_mem _ hx))]
      rfl

theorem joinSlash_split (s : GoStr) : joinSlash (splitOnSlash s) = s := by
  induction s with
  | nil => rfl
  | cons c t ih =>
    obtain ⟨h1, r, hto⟩ := splitOnSlash_exists_cons t
    by_cases hc : c = '/'
    · rw [show splitOnSlash (c :: t) = [] :: splitOnSlash t by simp [splitOnSlash, hc]]
      rw [hto]
      rw [hto] at ih
      rw [show joinSlash ([] :: h1 :: r) = [] ++ '/' :: joinSlash (h1 :: r) from rfl]
      rw [ih, hc]
      rfl
    · rw [show splitOnSlash (c :: t) = consHead c (splitOnSlash t) by
        simp [splitOnSlash, hc]]
      rw [hto] at ih ⊢
      cases r with
      | nil =>
        simp only [consHead, joinSlash] at ih ⊢
        rw [ih]
      | cons r0 rr =>
        rw [show consHead c (h1 :: r0 :: rr) = (c :: h1) :: r0 :: rr from rfl]
        rw [show joinSlash ((c :: h1) :: r0 :: rr)
            = (c :: h1) ++ '/' :: joinSlash (r0 :: rr) from rfl]
        rw [show joinSlash (h1 :: r0 :: rr) = h1 ++ '/' :: joinSlash (r0 :: rr) from rfl]
          at ih
        rw [← ih]
        rfl

theorem joinSlash_cons_shape (ch : Char) (ct : GoStr) (r : List GoStr) :
    ∃ t, joinSlash ((ch :: ct) :: r) = ch :: t := by
  cases r with
  | nil => exact ⟨ct, rfl⟩
  | cons d rr => exact ⟨ct ++ '/' :: joinSlash (d :: rr), rfl⟩

theorem joinSlash_append_ne (a b : List GoStr) (ha : a ≠ []) (hb : b ≠ []) :
    joinSlash (a ++ b) = joinSlash a ++ '/' :: joinSlash b := by
  induction a with
  | nil => exact absurd rfl ha
  | cons c r ih =>
    cases r with
    | nil =>
      cases b with
      | nil => exact absurd rfl hb
      | cons b0 bs => rfl
    | cons d rs =>
      have h1 : (c :: d :: rs) ++ b = c :: ((d :: rs) ++ b) := rfl
      rw [h1]
      rw [show joinSlash (c :: ((d :: rs) ++ b))
          = c ++ '/' :: joinSlash ((d :: rs) ++ b) from rfl]
      rw [ih (by simp)]
      rw [show joinSlash (c :: d :: rs) = c ++ '/' :: joinSlash (d :: rs) from rfl]
      simp

theorem cleanAux_plain (l : List GoStr) (rooted : Bool) :
    ∀ acc, (∀ c ∈ l, c = [] ∨ plainComp c) →
      cleanAux rooted acc l = acc.reverse ++ l.filter (fun c => !c.isEmpty) := by
  induction l with
  | nil => intro acc _; simp [cleanAux]
  | cons c rest ih =>
    intro acc hl
    rcases hl c (List.mem_cons_self _ _) with hc | hc
    · subst hc
      rw [show cleanAux rooted acc ([] :: rest) = cleanAux rooted acc rest by
        simp [cleanAux]]
      rw [ih acc (fun x hx => hl x (List.mem_cons_of_mem _ hx))]
      simp [List.filter_cons]
    · obtain ⟨hne, hns, hdot, hdd⟩ := hc
      rw [show cleanAux rooted acc (c :: rest) = cleanAux rooted (c :: acc) rest by
        simp [cleanAux, hne, hdot, hdd]]
      rw [ih (c :: acc) (fun x hx => hl x (List.mem_cons_of_mem _ hx))]
      rw [List.filter_cons, if_pos (by simpa using hne)]
      simp

theorem trimPrefix_append (a b : GoStr) : trimPrefix (a ++ b) a = b := by
  rw [trimPrefix, if_pos (by rw [ List.isPrefixOf_iff_prefix]; exact List.prefix_append a b)]
  exact List.drop_left a b

theorem trimPrefix_slash_of_head (s : GoStr) (h : s.head? ≠ some '/') :
    trimPrefix s ['/'] = s := by
  cases s with
  | nil => rfl
  | cons c t =>
    have hc : c ≠ '/' := fun hc => h (by rw [hc]; rfl)
    rw [trimPrefix, if_neg]
    rw [ List.isPrefixOf_iff_prefix]
    intro hpre
    rcases hpre with ⟨u, hu⟩
    rw [List.cons_append] at hu
    exact hc (by injection hu with h1 _; exact h1.symm)

theorem trimPrefix_cons_slash (s : GoStr) : trimPrefix ('/' :: s) ['/'] = s := by
  rw [trimPrefix, if_pos (by rw [ List.isPrefixOf_iff_prefix]; exact ⟨s, rfl⟩)]
  rfl

theorem pathClean_rooted_plain (rel : GoStr)
    (hrel : ∀ c ∈ splitOnSlash rel, plainComp c) :
    pathClean ('/' :: rel) = '/' :: rel := by
  have hsplit : splitOnSlash ('/' :: rel) = [] :: splitOnSlash rel := by
    simp [splitOnSlash]
  have hfil : (splitOnSlash rel).filter (fun c => !c.isEmpty) = splitOnSlash rel :=
    List.filter_eq_self.mpr (fun c hc => by simpa using (hrel c hc).1)
  have hclean : cleanAux true [] ([] :: splitOnSlash rel) = splitOnSlash rel := by
    rw [cleanAux_plain ([] :: splitOnSlash rel) true []
      (fun c hc => by
        rcases List.mem_cons.mp hc with hc | hc
        · exact Or.inl hc
        · exact Or.inr (hrel c hc))]
    simp [List.filter_cons, hfil]
  have hbody : pathClean ('/' :: rel)
      = '/' :: joinSlash (cleanAux true [] (splitOnSlash ('/' :: rel))) := by
    simp [pathClean]
  rw [hbody, hsplit, hclean, joinSlash_split]

theorem pathClean_not_rooted (s : GoStr) (ch0 : Char) (hh : s.head? = some ch0)
    (hch : ch0 ≠ '/')
    (hcomps : ∀ c ∈ splitOnSlash s, c = [] ∨ plainComp c)
    (hfil : (splitOnSlash s).filter (fun c => !c.isEmpty) ≠ []) :
    pathClean s = joinSlash ((splitOnSlash s).filter (fun c => !c.isEmpty)) := by
  have hsne : s ≠ [] := by
    cases s
    · simp at hh
    · simp
  have hdec : (decide (s.head? = some '/')) = false := by
    simp [hh, hch]
  have hclean : cleanAux false [] (splitOnSlash s)
      = (splitOnSlash s).filter (fun c => !c.isEmpty) := by
    rw [cleanAux_plain (splitOnSlash s) false [] hcomps]
    simp
  obtain ⟨f0, fr, hf⟩ : ∃ f0 fr,
      (splitOnSlash s).filter (fun c => !c.isEmpty) = f0 :: fr := by
    rcases hcase : (splitOnSlash s).filter (fun c => !c.isEmpty) with _ | ⟨f0, fr⟩
    · exact absurd hcase hfil
    · exact ⟨f0, fr, hcase⟩
  have hf0 : f0 ≠ [] := by
    have hmem : f0 ∈ (splitOnSlash s).filter (fun c => !c.isEmpty) := by
      rw [hf]; exact List.mem_cons_self _ _
    have := List.of_mem_filter hmem
    simpa using this
  obtain ⟨fc, fct, hf0e⟩ : ∃ fc fct, f0 = fc :: fct := by
    cases f0 with
    | nil => exact absurd rfl hf0
    | cons fc fct => exact ⟨fc, fct, rfl⟩
  have hjoin_ne : joinSlash ((splitOnSlash s).filter (fun c => !c.isEmpty)) ≠ [] := by
    rw [hf, hf0e]
    obtain ⟨t, ht⟩ := joinSlash_cons_shape fc fct fr
    rw [ht]
    simp
  simp only [pathClean, hsne, reduceIte, hdec, Bool.false_eq_true, hclean,
    if_neg hjoin_ne]

theorem dirKey_cons_case (root rel p : GoStr) (p0 : GoStr) (pr : List GoStr)
    (pc : Char) (pct : GoStr) (hp0e : p0 = pc :: pct) (hpcne : pc ≠ '/')
    (hps : p.head? = some pc) (hpne : p ≠ [])
    (hfilter : (splitOnSlash (p ++ '/' :: '/' :: rel)).filter (fun c => !c.isEmpty)
        = (p0 :: pr) ++ splitOnSlash rel)
    (hcomps : ∀ c ∈ splitOnSlash (p ++ '/' :: '/' :: rel), c = [] ∨ plainComp c) :
    dirKey p root (root ++ '/' :: rel) = joinSlash ((p0 :: pr) ++ splitOnSlash rel)
    ∧ joinSlash ((p0 :: pr) ++ splitOnSlash rel) = pc ::
        (joinSlash ((p0 :: pr) ++ splitOnSlash rel)).tail := by
  have h1 : trimPrefix (root ++ '/' :: rel) root = '/' :: rel := trimPrefix_append _ _
  have hsh : (p ++ '/' :: '/' :: rel).head? = some pc := by
    cases p with
    | nil => exact absurd rfl hpne
    | cons a t => simpa using hps
  have hfj : filepathJoin2 p ('/' :: rel) = pathClean (p ++ '/' :: '/' :: rel) := by
    simp [filepathJoin2, hpne]
  have hclean := pathClean_not_rooted (p ++ '/' :: '/' :: rel) pc hsh hpcne hcomps
    (by rw [hfilter]; simp)
  obtain ⟨t2, ht2⟩ := joinSlash_cons_shape pc pct (pr ++ splitOnSlash rel)
  have hshape : joinSlash ((p0 :: pr) ++ splitOnSlash rel) = pc :: t2 := by
    rw [show (p0 :: pr) ++ splitOnSlash rel = p0 :: (pr ++ splitOnSlash rel) from rfl,
      hp0e, ht2]
  constructor
  · simp only [dirKey, h1, hfj, hclean, hfilter, hshape]
    exact trimPrefix_slash_of_head _ (by simp [hpcne])
  · rw [hshape]
    rfl

/-- C3: directory-mode remote key normalization.  For a file at
`root ++ "/" ++ rel` under local root `root`, with remote prefix `p`
given by plain components (optionally with a trailing slash, as the
already-trimmed remote path argument may carry), the computed key is the
`/`-join of the prefix components and the components of `rel`; it never
starts with `/`, and for a nonempty prefix it is literally
`prefix ++ "/" ++ rel`. -/
theorem dir_key_normalization (root rel p : GoStr) (pcomps : List GoStr)
    (hp : p = joinSlash pcomps ∨ (pcomps ≠ [] ∧ p = joinSlash pcomps ++ ['/']))
    (hpc : ∀ c ∈ pcomps, plainComp c)
    (hrel : ∀ c ∈ splitOnSlash rel, plainComp c) :
    dirKey p root (root ++ '/' :: rel) = joinSlash (pcomps ++ splitOnSlash rel)
    ∧ (dirKey p root (root ++ '/' :: rel)).head? ≠ some '/'
    ∧ (pcomps ≠ [] →
        joinSlash (pcomps ++ splitOnSlash rel) = joinSlash pcomps ++ '/' :: rel) := by
  have h1 : trimPrefix (root ++ '/' :: rel) root = '/' :: rel := trimPrefix_append _ _
  obtain ⟨r0, rr, hrsp⟩ := splitOnSlash_exists_cons rel
  have hr0 : plainComp r0 := hrel r0 (by rw [hrsp]; exact List.mem_cons_self _ _)
  obtain ⟨rc, rct, hr0e⟩ : ∃ rc rct, r0 = rc :: rct := by
    cases r0 with
    | nil => exact absurd rfl hr0.1
    | cons rc rct => exact ⟨rc, rct, rfl⟩
  have hrc : rc ≠ '/' := fun h => hr0.2.1 (by rw [hr0e, h]; exact List.mem_cons_self _ _)
  have hjrel : joinSlash (splitOnSlash rel) = rel := joinSlash_split rel
  have hfilrel : (splitOnSlash rel).filter (fun c => !c.isEmpty) = splitOnSlash rel :=
    List.filter_eq_self.mpr (fun c hc => by simpa using (hrel c hc).1)
  cases pcomps with
  | nil =>
    have hpnil : p = [] := by
      rcases hp with hp | ⟨hne, _⟩
      · simpa using hp
      · exact absurd rfl hne
    subst hpnil
    have hfj : filepathJoin2 [] ('/' :: rel) = pathClean ('/' :: rel) := by
      simp [filepathJoin2]
    have hkey : dirKey [] root (root ++ '/' :: rel) = rel := by
      simp only [dirKey, h1, hfj, pathClean_rooted_plain rel hrel, trimPrefix_cons_slash]
    refine ⟨?_, ?_, fun h => absurd rfl h⟩
    · rw [hkey, List.nil_append]
      exact hjrel.symm
    · rw [hkey]
      obtain ⟨t, ht⟩ := joinSlash_cons_shape rc rct rr
      rw [show rel = rc :: t by rw [← hjrel, hrsp, hr0e, ht]]
      simp [hrc]
  | cons p0 pr =>
    have hp0 : plainComp p0 := hpc p0 (List.mem_cons_self _ _)
    obtain ⟨pc, pct, hp0e⟩ : ∃ pc pct, p0 = pc :: pct := by
      cases p0 with
      | nil => exact absurd rfl hp0.1
      | cons pc pct => exact ⟨pc, pct, rfl⟩
    have hpcne : pc ≠ '/' :=
      fun h => hp0.2.1 (by rw [hp0e, h]; exact List.mem_cons_self _ _)
    obtain ⟨pt, hpt⟩ := joinSlash_cons_shape pc pct pr
    have hnoslash : ∀ c ∈ (p0 :: pr), '/' ∉ c := fun c hc => (hpc c hc).2.1
    have hsplitp : splitOnSlash (joinSlash (p0 :: pr)) = p0 :: pr :=
      splitOnSlash_join _ (by simp) hnoslash
    have hfilp : (p0 :: pr).filter (fun c => !c.isEmpty) = p0 :: pr :=
      List.filter_eq_self.mpr (fun c hc => by simpa using (hpc c hc).1)
    have hsplit1 : splitOnSlash ('/' :: rel) = [] :: splitOnSlash rel := by
      simp [splitOnSlash]
    have hsplit2 : splitOnSlash ('/' :: '/' :: rel)
        = [] :: [] :: splitOnSlash rel := by
      simp [splitOnSlash]
    have hthird : joinSlash ((p0 :: pr) ++ splitOnSlash rel)
        = joinSlash (p0 :: pr) ++ '/' :: rel := by
      rw [joinSlash_append_ne (p0 :: pr) (splitOnSlash rel) (by simp)
        (by rw [hrsp]; simp), hjrel]
    rcases hp with hp1 | ⟨_, hp2⟩
    · -- no trailing slash on the prefix
      have hps : p.head? = some pc := by
        rw [hp1, hp0e, hpt]
        rfl
      have hpne : p ≠ [] := by
        rw [hp1, hp0e, hpt]
        simp
      have hsp : splitOnSlash (p ++ '/' :: '/' :: rel)
          = (p0 :: pr) ++ [] :: splitOnSlash rel := by
        rw [hp1, splitOnSlash_append, hsplitp, hsplit1]
      have hfilter : (splitOnSlash (p ++ '/' :: '/' :: rel)).filter
          (fun c => !c.isEmpty) = (p0 :: pr) ++ splitOnSlash rel := by
        rw [hsp, List.filter_append, hfilp, List.filter_cons]
        simp [hfilrel]
      have hcomps : ∀ c ∈ splitOnSlash (p ++ '/' :: '/' :: rel),
          c = [] ∨ plainComp c := by
        intro c hc
        rw [hsp] at hc
        rcases List.mem_append.mp hc with hc | hc
        · exact Or.inr (hpc c hc)
        · rcases List.mem_cons.mp hc with hc | hc
          · exact Or.inl hc
          · exact Or.inr (hrel c hc)
      obtain ⟨hk, hhd⟩ := dirKey_cons_case root rel p p0 pr pc pct hp0e hpcne
        hps hpne hfilter hcomps
      exact ⟨hk, by rw [hk, hhd]; simp [hpcne], fun _ => hthird⟩
    · -- trailing slash on the prefix
      have hps : p.head? = some pc := by
        rw [hp2, hp0e, hpt]
        rfl
      have hpne : p ≠ [] := by
        rw [hp2, hp0e, hpt]
        simp
      have hsp : splitOnSlash (p ++ '/' :: '/' :: rel)
          = (p0 :: pr) ++ [] :: [] :: splitOnSlash rel := by
        rw [hp2, List.append_assoc,
          show (['/'] : GoStr) ++ '/' :: '/' :: rel = '/' :: ('/' :: '/' :: rel) from rfl,
          splitOnSlash_append, hsplitp, hsplit2]
      have hfilter : (splitOnSlash (p ++ '/' :: '/' :: rel)).filter
          (fun c => !c.isEmpty) = (p0 :: pr) ++ splitOnSlash rel := by
        rw [hsp, List.filter_append, hfilp, List.filter_cons, List.filter_cons]
        simp [hfilrel]
      have hcomps : ∀ c ∈ splitOnSlash (p ++ '/' :: '/' :: rel),
          c = [] ∨ plainComp c := by
        intro c hc
        rw [hsp] at hc
        rcases List.mem_append.mp hc with hc | hc
        · exact Or.inr (hpc c hc)
        · rcases List.mem_cons.mp hc with hc | hc
          · exact Or.inl hc
          · rcases List.mem_cons.mp hc with hc | hc
            · exact Or.inl hc
            · exact Or.inr (hrel c hc)
      obtain ⟨hk, hhd⟩ := dirKey_cons_case root rel p p0 pr pc pct hp0e hpcne
        hps hpne hfilter hcomps
      exact ⟨hk, by rw [hk, hhd]; simp [hpcne], fun _ => hthird⟩

/-- Witness for C3: the spec's concrete example — root `/a/b`, file
`/a/b/c/d.txt`, remote prefix argument `/x/y/` — yields key `x/y/c/d.txt`
with no leading slash. -/
theorem dir_key_normalization_witness :
    dirKey (trimLeftSlash ['/', 'x', '/', 'y', '/']) ['/', 'a', '/', 'b']
        (['/', 'a', '/', 'b'] ++ '/' :: ['c', '/', 'd', '.', 't', 'x', 't'])
      = ['x', '/', 'y', '/', 'c', '/', 'd', '.', 't', 'x', 't']
    ∧ (dirKey (trimLeftSlash ['/', 'x', '/', 'y', '/']) ['/', 'a', '/', 'b']
        (['/', 'a', '/', 'b'] ++ '/' :: ['c', '/', 'd', '.', 't', 'x', 't'])).head?
      ≠ some '/' := by
  have h := dir_key_normalization ['/', 'a', '/', 'b'] ['c', '/', 'd', '.', 't', 'x', 't']
    (trimLeftSlash ['/', 'x', '/', 'y', '/']) [['x'], ['y']]
    (Or.inr ⟨by decide, by decide⟩) (by decide) (by decide)
  exact ⟨h.1.trans (by decide), h.2.1⟩

end R2
